import Mathlib

/-!
Shallow embedding of the `cyst` file-encryption tool (src/file.rs, src/header.rs,
src/factor.rs) and proofs about it.

Bytes are modelled as `List Nat`; a well-formed byte string has every element
below 256. The crates chacha20poly1305 and argon2 are modelled by an
ideal AEAD built from an injective byte-list encoding: `aeadSeal` appends a
16-element tag whose entries determine the key, the nonce and the message, and
`aeadOpen` accepts exactly the outputs of `aeadSeal`. Tag entries are all at
least 256, so a genuine byte string is never mistaken for a sealed chunk.
-/

namespace Cyst

abbrev Bytes := List Nat

/-- A byte string: every element is an actual byte. -/
def wfBytes (b : Bytes) : Prop := ∀ x ∈ b, x < 256

instance (b : Bytes) : Decidable (wfBytes b) := by
  unfold wfBytes; infer_instance

/-- Injective encoding of a byte list into a single natural number. -/
def enc : Bytes → Nat
  | [] => 0
  | b :: bs => 1 + b + 256 * enc bs

/-- Errors surfaced by the core (src uses `anyhow` strings; we name them). -/
inductive Err where
  | ioError : Err
  | headerMalformed : Err
  | unknownFactor (name : Bytes) : Err
  | factorFailed (name : Bytes) : Err
  | decryptionFailed : Err
  deriving DecidableEq

instance {e a : Type} [DecidableEq e] [DecidableEq a] : DecidableEq (Except e a) :=
  fun x y =>
    match x, y with
    | Except.ok u, Except.ok v =>
      if h : u = v then isTrue (by rw [h])
      else isFalse (by intro hh; injection hh; contradiction)
    | Except.error u, Except.error v =>
      if h : u = v then isTrue (by rw [h])
      else isFalse (by intro hh; injection hh; contradiction)
    | Except.ok _, Except.error _ => isFalse (by intro hh; injection hh)
    | Except.error _, Except.ok _ => isFalse (by intro hh; injection hh)

/-! ### Ideal AEAD (model of ChaCha20-Poly1305) -/

/-- The 16-element authentication tag of the ideal AEAD. Every entry is ≥ 256,
so a tag can never coincide with a run of plain bytes. -/
def mkTag (key nonce msg : Bytes) : Bytes :=
  [256 + enc key, 256 + enc nonce, 256 + enc msg] ++ List.replicate 13 256

/-- Ideal AEAD encryption: ciphertext is the message with the tag appended,
matching the `N + 16` ciphertext size of ChaCha20-Poly1305. -/
def aeadSeal (key nonce msg : Bytes) : Bytes := msg ++ mkTag key nonce msg

/-- Ideal AEAD decryption: accepts exactly the outputs of `aeadSeal` for the
same key and nonce. -/
def aeadOpen (key nonce ct : Bytes) : Option Bytes :=
  if ct.length < 16 then none
  else
    let m := ct.take (ct.length - 16)
    if ct.drop (ct.length - 16) = mkTag key nonce m then some m else none

/-- Nonce of the STREAM construction: the 7-byte file nonce extended with the
chunk counter and the last-chunk flag. -/
def streamNonce (n7 : Bytes) (ctr : Nat) (last : Bool) : Bytes :=
  n7 ++ [ctr, cond last 1 0]

def streamSeal (key n7 : Bytes) (ctr : Nat) (last : Bool) (msg : Bytes) : Bytes :=
  aeadSeal key (streamNonce n7 ctr last) msg

def streamOpen (key n7 : Bytes) (ctr : Nat) (last : Bool) (ct : Bytes) : Option Bytes :=
  aeadOpen key (streamNonce n7 ctr last) ct

/-! ### The streaming file loops (src/file.rs) -/

/-- `BUF_SIZE` from src/file.rs: the buffer used for both encryption and
decryption is 4096 bytes. -/
def BUF_SIZE : Nat := 4096

/-- The chunks fed to the encryptor by the loop of `encrypt_file`, in order,
tagged with whether they go to `encrypt_last` (`true`) or `encrypt_next`
(`false`). While more than `BUF_SIZE` bytes remain the full buffer is
encrypted with `encrypt_next`; otherwise the remaining bytes go to
`encrypt_last` and the loop breaks. Reads are modelled as full
(see `encGo` for the general read model). -/
def encChunks (p : Bytes) : List (Bool × Bytes) :=
  if BUF_SIZE < p.length then
    (false, p.take BUF_SIZE) :: encChunks (p.drop BUF_SIZE)
  else
    [(true, p)]
termination_by p.length
decreasing_by simp [BUF_SIZE] at *; omega

/-- The chunks consumed by the loop of `decrypt_file`, in order, tagged with
whether they go to `decrypt_last` (`true`) or `decrypt_next` (`false`).
The loop reads into the same 4096-byte buffer, so non-final consumed chunks
are 4096 bytes long. -/
def decChunks (c : Bytes) : List (Bool × Bytes) :=
  if BUF_SIZE < c.length then
    (false, c.take BUF_SIZE) :: decChunks (c.drop BUF_SIZE)
  else
    [(true, c)]
termination_by c.length
decreasing_by simp [BUF_SIZE] at *; omega

/-- Seal a list of chunks with consecutive counters. -/
def sealChunks (key n7 : Bytes) : Nat → List (Bool × Bytes) → Bytes
  | _, [] => []
  | ctr, (last, chunk) :: rest =>
    streamSeal key n7 ctr last chunk ++ sealChunks key n7 (ctr + 1) rest

/-- Open a list of chunks with consecutive counters, failing on the first
chunk the AEAD rejects. -/
def openChunks (key n7 : Bytes) : Nat → List (Bool × Bytes) → Except Err Bytes
  | _, [] => Except.ok []
  | ctr, (last, chunk) :: rest =>
    match streamOpen key n7 ctr last chunk with
    | none => Except.error Err.decryptionFailed
    | some m => (openChunks key n7 (ctr + 1) rest).map (fun r => m ++ r)

/-- The ciphertext written by `encrypt_file` after the header, for the payload
`p`, with all reads returning the full requested amount. -/
def encrypt_file (key n7 p : Bytes) : Bytes :=
  sealChunks key n7 0 (encChunks p)

/-- The plaintext recovered by `decrypt_file` from the ciphertext `c`
(the file contents after the header), with all reads full. -/
def decrypt_file (key n7 c : Bytes) : Except Err Bytes :=
  openChunks key n7 0 (decChunks c)

/-! ### The header data model (src/header.rs)

`OptionData` and `Header` mirror the Rust structs field for field. Option
names and factor names are UTF-8 strings in Rust, modelled here as their
byte lists; the `HashMap` of options is modelled as an association list. -/

structure OptionData where
  salt : Bytes
  factors : List (Bytes × Bytes)
  primary_key_nonce : Bytes
  primary_key_ciphertext : Bytes
  deriving DecidableEq

structure Header where
  options : List (Bytes × OptionData)
  nonce : Bytes
  deriving DecidableEq

/-! ### The bincode codec (Header::to_bytes / Header::from_file)

bincode with default options: fixed-width little-endian integers, `u64`
length markers before strings, vectors and maps, raw bytes for fixed-size
arrays. -/

/-- `k` little-endian base-256 digits of `n`. -/
def leBytes : Nat → Nat → Bytes
  | 0, _ => []
  | k + 1, n => n % 256 :: leBytes k (n / 256)

/-- The 8-byte little-endian encoding of a `u64`. -/
def le64 (n : Nat) : Bytes := leBytes 8 n

/-- Recombine little-endian base-256 digits into a number. -/
def valLE : Bytes → Nat
  | [] => 0
  | b :: bs => b + 256 * valLE bs

/-- Read exactly `n` bytes (model of `read_exact` / fixed-size fields). -/
def readN (n : Nat) (l : Bytes) : Option (Bytes × Bytes) :=
  if n ≤ l.length then some (l.take n, l.drop n) else none

/-- Read a little-endian `u64`. -/
def readU64 (l : Bytes) : Option (Nat × Bytes) :=
  match readN 8 l with
  | none => none
  | some (b, r) => some (valLE b, r)

/-- Length-marked byte string, as bincode writes `String` and `Vec<u8>`. -/
def encBStr (s : Bytes) : Bytes := le64 s.length ++ s

def readBStr (l : Bytes) : Option (Bytes × Bytes) :=
  match readU64 l with
  | none => none
  | some (n, r) => readN n r

/-- Read `n` consecutive elements with the element reader `rd`. -/
def readList {α : Type} (rd : Bytes → Option (α × Bytes)) :
    Nat → Bytes → Option (List α × Bytes)
  | 0, l => some ([], l)
  | k + 1, l =>
    match rd l with
    | none => none
    | some (a, r) =>
      match readList rd k r with
      | none => none
      | some (as, r2) => some (a :: as, r2)

def encFactor (f : Bytes × Bytes) : Bytes := encBStr f.1 ++ encBStr f.2

def readFactor (l : Bytes) : Option ((Bytes × Bytes) × Bytes) :=
  match readBStr l with
  | none => none
  | some (nm, r) =>
    match readBStr r with
    | none => none
    | some (d, r2) => some ((nm, d), r2)

/-- bincode encoding of `OptionData`: `salt` raw (`[u8; 32]`), factor list
with a `u64` count, `primary_key_nonce` raw (`[u8; 12]`), length-marked
`primary_key_ciphertext`. -/
def encOptionData (o : OptionData) : Bytes :=
  o.salt ++ le64 o.factors.length ++ (o.factors.map encFactor).flatten ++
    o.primary_key_nonce ++ encBStr o.primary_key_ciphertext

def readOptionData (l : Bytes) : Option (OptionData × Bytes) :=
  match readN 32 l with
  | none => none
  | some (salt, r) =>
    match readU64 r with
    | none => none
    | some (n, r2) =>
      match readList readFactor n r2 with
      | none => none
      | some (fs, r3) =>
        match readN 12 r3 with
        | none => none
        | some (pkn, r4) =>
          match readBStr r4 with
          | none => none
          | some (ct, r5) =>
            some (⟨salt, fs, pkn, ct⟩, r5)

def encEntry (e : Bytes × OptionData) : Bytes := encBStr e.1 ++ encOptionData e.2

def readEntry (l : Bytes) : Option ((Bytes × OptionData) × Bytes) :=
  match readBStr l with
  | none => none
  | some (nm, r) =>
    match readOptionData r with
    | none => none
    | some (od, r2) => some ((nm, od), r2)

/-- bincode encoding of `Header`: the option map with a `u64` count, then
the raw 7-byte nonce. -/
def encodeHeader (h : Header) : Bytes :=
  le64 h.options.length ++ (h.options.map encEntry).flatten ++ h.nonce

def decodeHeader (l : Bytes) : Option (Header × Bytes) :=
  match readU64 l with
  | none => none
  | some (n, r) =>
    match readList readEntry n r with
    | none => none
    | some (os, r2) =>
      match readN 7 r2 with
      | none => none
      | some (nonce, r3) => some (⟨os, nonce⟩, r3)

/-- `Header::to_bytes`: the serialized header with an 8-byte little-endian
length marker in front. -/
def to_bytes (h : Header) : Bytes :=
  le64 (encodeHeader h).length ++ encodeHeader h

/-- `Header::from_file`: read the 8-byte length, read that many bytes,
deserialize. `read_exact` failures become `ioError`, bincode failures
become `headerMalformed`. No size cap is applied. -/
def from_file (input : Bytes) : Except Err Header :=
  match readU64 input with
  | none => Except.error Err.ioError
  | some (len, rest) =>
    match readN len rest with
    | none => Except.error Err.ioError
    | some (hb, _) =>
      match decodeHeader hb with
      | none => Except.error Err.headerMalformed
      | some (h, _) => Except.ok h

/-- Well-formedness needed for encoding: the fixed-size arrays have their
declared sizes and every length field fits in a `u64`. -/
def wfOptionData (o : OptionData) : Prop :=
  o.salt.length = 32 ∧ o.primary_key_nonce.length = 12 ∧
    o.primary_key_ciphertext.length < 2 ^ 64 ∧ o.factors.length < 2 ^ 64 ∧
    ∀ f ∈ o.factors, f.1.length < 2 ^ 64 ∧ f.2.length < 2 ^ 64

def wfHeader (h : Header) : Prop :=
  h.nonce.length = 7 ∧ h.options.length < 2 ^ 64 ∧
    ∀ e ∈ h.options, e.1.length < 2 ^ 64 ∧ wfOptionData e.2

instance (o : OptionData) : Decidable (wfOptionData o) := by
  unfold wfOptionData; infer_instance

instance (h : Header) : Decidable (wfHeader h) := by
  unfold wfHeader; infer_instance

/-! ### Option key wrapping and header creation (Header::new, prompt_option)

Randomness (primary key, stream nonce, salts, option nonces) and the user's
interactive answers are explicit inputs: an `OptionSpec` records, for one
option, its user-chosen name, its random salt and primary-key nonce, and
the `(name, data, key)` triple each chosen factor produced. -/

structure OptionSpec where
  name : Bytes
  salt : Bytes
  pkNonce : Bytes
  factors : List (Bytes × Bytes × Bytes)
  deriving DecidableEq

/-- Model of `Argon2::default().hash_password_into`: a deterministic 32-entry
key derived from the password and the salt. -/
def argon2 (pwd salt : Bytes) : Bytes :=
  [enc pwd, enc salt] ++ List.replicate 30 0

/-- `total_key`: the factor keys concatenated in the order the user added
the factors, with no separator. -/
def totalKey (fs : List (Bytes × Bytes × Bytes)) : Bytes :=
  (fs.map (fun f => f.2.2)).flatten

/-- `prompt_option`, after the interaction: the stored option wraps the
primary key under the Argon2 key of the concatenated factor keys and the
option's salt. -/
def mkOptionData (pk : Bytes) (s : OptionSpec) : OptionData :=
  { salt := s.salt
    factors := s.factors.map (fun f => (f.1, f.2.1))
    primary_key_nonce := s.pkNonce
    primary_key_ciphertext :=
      aeadSeal (argon2 (totalKey s.factors) s.salt) s.pkNonce pk }

/-- `HashMap::insert`: replaces any existing binding of the same name. -/
def insertA (k : Bytes) (v : OptionData) (m : List (Bytes × OptionData)) :
    List (Bytes × OptionData) :=
  m.filter (fun p => p.1 ≠ k) ++ [(k, v)]

/-- `Header::new`: builds one option per spec, inserting each into the
options map, and stores the stream nonce. The same `pk` is wrapped by
every option. -/
def header_new (pk n7 : Bytes) (specs : List OptionSpec) : Header :=
  { options := specs.foldl (fun m s => insertA s.name (mkOptionData pk s) m) []
    nonce := n7 }

/-! ### Factor registry and decryption (Factor, Header::to_decryptor) -/

/-- The factor registry, name to type-erased `derive` handler
(`FactorRegistry` from src/factor.rs; `create` is not needed here). -/
abbrev Registry := List (Bytes × (Bytes → Except Err Bytes))

/-- The factor loop of `Header::to_decryptor`: walk the chosen option's
factors in stored order; look each name up in the registry (unknown name is
fatal), run its `derive`, and append the key to `total_key`. The second
component records, in order, the factors whose `derive` was invoked. -/
def deriveFactors (reg : Registry) :
    List (Bytes × Bytes) → Except Err Bytes × List Bytes
  | [] => (Except.ok [], [])
  | (nm, d) :: rest =>
    match List.lookup nm reg with
    | none => (Except.error (Err.unknownFactor nm), [])
    | some f =>
      match f d with
      | Except.error e => (Except.error e, [nm])
      | Except.ok key =>
        match deriveFactors reg rest with
        | (res, tr) => (res.map (fun tk => key ++ tk), nm :: tr)

/-- `Header::to_decryptor` for the chosen option name: derive the factor
keys, recompute the Argon2 wrap key with the stored salt, unwrap the primary
key, and return the stream decryptor's key material `(primary key, nonce)`. -/
def to_decryptor (h : Header) (reg : Registry) (choice : Bytes) :
    Except Err (Bytes × Bytes) :=
  match List.lookup choice h.options with
  | none => Except.error Err.ioError
  | some od =>
    match deriveFactors reg od.factors with
    | (Except.error e, _) => Except.error e
    | (Except.ok tk, _) =>
      match aeadOpen (argon2 tk od.salt) od.primary_key_nonce
          od.primary_key_ciphertext with
      | none => Except.error Err.decryptionFailed
      | some pk => Except.ok (pk, h.nonce)

/-! ### The file loops with explicit read results (src/file.rs, exact)

The loops above assume every `read` fills the buffer. `encGo`/`decGo` model
the code exactly: each entry of `sched` is the byte count the next
`input.read(&mut buffer)` returns (capped by the buffer size and the bytes
remaining). In the non-final branch the count is ignored and the whole
4096-byte buffer — freshly read bytes followed by stale bytes from earlier
iterations — is passed to `encrypt_next`/`decrypt_next`. In the final branch
only the `read` bytes are passed. -/

def encGo (input key n7 : Bytes) :
    List Nat → Nat → Bytes → Nat → Except Err Bytes
  | sched, pos, buf, ctr =>
    let left := input.length - pos
    if BUF_SIZE < left then
      match sched with
      | [] => Except.error Err.ioError
      | n :: s' =>
        let r := min n (min BUF_SIZE left)
        let buf' := (input.drop pos).take r ++ buf.drop r
        (encGo input key n7 s' (pos + r) buf' (ctr + 1)).map
          (fun out => streamSeal key n7 ctr false buf' ++ out)
    else
      match sched with
      | [] => Except.error Err.ioError
      | n :: _ =>
        let r := min n (min BUF_SIZE left)
        let buf' := (input.drop pos).take r ++ buf.drop r
        Except.ok (streamSeal key n7 ctr true (buf'.take r))

/-- `encrypt_file` with explicit read results; the buffer starts zeroed. -/
def encryptWithReads (key n7 input : Bytes) (sched : List Nat) :
    Except Err Bytes :=
  encGo input key n7 sched 0 (List.replicate BUF_SIZE 0) 0

def decGo (input key n7 : Bytes) :
    List Nat → Nat → Bytes → Nat → Except Err Bytes
  | sched, pos, buf, ctr =>
    let left := input.length - pos
    if BUF_SIZE < left then
      match sched with
      | [] => Except.error Err.ioError
      | n :: s' =>
        let r := min n (min BUF_SIZE left)
        let buf' := (input.drop pos).take r ++ buf.drop r
        match streamOpen key n7 ctr false buf' with
        | none => Except.error Err.decryptionFailed
        | some m =>
          (decGo input key n7 s' (pos + r) buf' (ctr + 1)).map
            (fun out => m ++ out)
    else
      match sched with
      | [] => Except.error Err.ioError
      | n :: _ =>
        let r := min n (min BUF_SIZE left)
        let buf' := (input.drop pos).take r ++ buf.drop r
        match streamOpen key n7 ctr true (buf'.take r) with
        | none => Except.error Err.decryptionFailed
        | some m => Except.ok m

/-- `decrypt_file` with explicit read results; the buffer starts zeroed. -/
def decryptWithReads (key n7 input : Bytes) (sched : List Nat) :
    Except Err Bytes :=
  decGo input key n7 sched 0 (List.replicate BUF_SIZE 0) 0

/-! ### Concrete material for witnesses and counterexamples -/

/-- A concrete 32-byte stream key. -/
def k0 : Bytes := List.replicate 32 7

/-- A concrete 7-byte stream nonce. -/
def n70 : Bytes := List.replicate 7 3

/-- A small concrete header. -/
def hEx : Header :=
  { options := [([65],
      { salt := List.replicate 32 1
        factors := [([70], [9])]
        primary_key_nonce := List.replicate 12 2
        primary_key_ciphertext := List.replicate 48 3 })]
    nonce := List.replicate 7 4 }

/-- A valid header whose serialized size exceeds the suggested 16 MiB cap:
one option holding a factor with 2^24 bytes of factor data. -/
def bigH : Header :=
  { options := [([65],
      { salt := List.replicate 32 0
        factors := [([66], List.replicate (2 ^ 24) 0)]
        primary_key_nonce := List.replicate 12 0
        primary_key_ciphertext := List.replicate 48 0 })]
    nonce := List.replicate 7 0 }

/-- A registry holding only the factor named "a" (byte 97), whose `derive`
succeeds with key `[1]`. -/
def reg0 : Registry := [([97], fun _ => Except.ok [1])]

/-- An option listing the known factor "a" first and the unknown factor
"x" (byte 120) second. -/
def od0 : OptionData :=
  { salt := [5]
    factors := [([97], [0]), ([120], [0])]
    primary_key_nonce := [6]
    primary_key_ciphertext := [7] }

/-- A header offering `od0` under the option name "c" (byte 99). -/
def h4 : Header := { options := [([99], od0)], nonce := List.replicate 7 0 }

/-- A concrete 32-byte primary key. -/
def pk0 : Bytes := List.replicate 32 9

/-- A one-factor option spec for witnesses. -/
def spec0 : OptionSpec :=
  { name := [78], salt := [1], pkNonce := [2], factors := [([97], [3], [4])] }

/-- Two option specs sharing the name `[78]` but with different salts. -/
def sp1 : OptionSpec := { name := [78], salt := [1], pkNonce := [0], factors := [] }

def sp2 : OptionSpec := { name := [78], salt := [2], pkNonce := [0], factors := [] }

/-! ## Lemmas about the ideal AEAD -/

theorem length_mkTag (key nonce msg : Bytes) : (mkTag key nonce msg).length = 16 := by
  simp [mkTag]

theorem length_aeadSeal (key nonce msg : Bytes) :
    (aeadSeal key nonce msg).length = msg.length + 16 := by
  simp [aeadSeal, length_mkTag]

theorem aeadOpen_seal (key nonce m : Bytes) :
    aeadOpen key nonce (aeadSeal key nonce m) = some m := by
  have hlen : (aeadSeal key nonce m).length = m.length + 16 := length_aeadSeal key nonce m
  unfold aeadOpen
  rw [hlen]
  have h1 : ¬ m.length + 16 < 16 := by omega
  have h2 : m.length + 16 - 16 = m.length := by omega
  have htake : (aeadSeal key nonce m).take m.length = m :=
    List.take_left m (mkTag key nonce m)
  have hdrop : (aeadSeal key nonce m).drop m.length = mkTag key nonce m :=
    List.drop_left m (mkTag key nonce m)
  simp [h1, h2, htake, hdrop]

/-- A run of genuine bytes is never a valid sealed chunk: the tag entries are
all at least 256. -/
theorem aeadOpen_wf_none (key nonce ct : Bytes) (hwf : wfBytes ct)
    (h16 : 16 ≤ ct.length) : aeadOpen key nonce ct = none := by
  unfold aeadOpen
  have h1 : ¬ ct.length < 16 := by omega
  simp only [h1, if_false]
  split
  · next heq =>
    exfalso
    have hmem : 256 + enc key ∈ ct.drop (ct.length - 16) := by
      rw [heq]; simp [mkTag]
    have : 256 + enc key ∈ ct := List.mem_of_mem_drop hmem
    have := hwf _ this
    omega
  · rfl

theorem streamOpen_seal (key n7 : Bytes) (ctr : Nat) (last : Bool) (m : Bytes) :
    streamOpen key n7 ctr last (streamSeal key n7 ctr last m) = some m :=
  aeadOpen_seal key (streamNonce n7 ctr last) m

theorem length_streamSeal (key n7 : Bytes) (ctr : Nat) (last : Bool) (m : Bytes) :
    (streamSeal key n7 ctr last m).length = m.length + 16 :=
  length_aeadSeal key (streamNonce n7 ctr last) m

/-! ## Lemmas about the chunking loops -/

theorem encChunks_of_le {p : Bytes} (h : p.length ≤ BUF_SIZE) :
    encChunks p = [(true, p)] := by
  unfold encChunks
  simp [Nat.not_lt.mpr h]

theorem encChunks_of_gt {p : Bytes} (h : BUF_SIZE < p.length) :
    encChunks p = (false, p.take BUF_SIZE) :: encChunks (p.drop BUF_SIZE) := by
  conv_lhs => unfold encChunks
  simp [h]

theorem decChunks_of_le {c : Bytes} (h : c.length ≤ BUF_SIZE) :
    decChunks c = [(true, c)] := by
  unfold decChunks
  simp [Nat.not_lt.mpr h]

theorem decChunks_of_gt {c : Bytes} (h : BUF_SIZE < c.length) :
    decChunks c = (false, c.take BUF_SIZE) :: decChunks (c.drop BUF_SIZE) := by
  conv_lhs => unfold decChunks
  simp [h]

/-- Round trip does hold for payloads that fit in a single chunk whose
ciphertext still fits in the 4096-byte read: payloads of at most
4096 − 16 = 4080 bytes. -/
theorem roundtrip_small (key n7 p : Bytes) (h : p.length + 16 ≤ BUF_SIZE) :
    decrypt_file key n7 (encrypt_file key n7 p) = Except.ok p := by
  have hp : p.length ≤ BUF_SIZE := by omega
  have henc : encrypt_file key n7 p = streamSeal key n7 0 true p := by
    unfold encrypt_file
    rw [encChunks_of_le hp]
    simp [sealChunks]
  have hlen : (streamSeal key n7 0 true p).length = p.length + 16 :=
    length_streamSeal key n7 0 true p
  unfold decrypt_file
  rw [henc, decChunks_of_le (by omega)]
  simp [openChunks, streamOpen_seal, Except.map]

/-- C1: the round-trip claim fails on the code. A 4096-byte payload is
encrypted as one `encrypt_last` chunk of 4096 + 16 bytes, but the decrypt
loop sees 4112 > `BUF_SIZE` bytes remaining and feeds the first 4096
ciphertext bytes to `decrypt_next`, which rejects them, so decrypting the
output of `encrypt_file` fails instead of reproducing the payload. -/
theorem c1_roundtrip_fails :
    decrypt_file k0 n70 (encrypt_file k0 n70 (List.replicate 4096 1)) =
      Except.error Err.decryptionFailed := by
  have henc : encrypt_file k0 n70 (List.replicate 4096 1) =
      streamSeal k0 n70 0 true (List.replicate 4096 1) := by
    unfold encrypt_file
    rw [encChunks_of_le (by simp only [List.length_replicate, BUF_SIZE]; omega)]
    simp only [sealChunks, List.append_nil]
  have hlen : (streamSeal k0 n70 0 true (List.replicate 4096 1)).length = 4112 := by
    rw [length_streamSeal, List.length_replicate]
  have htake : (streamSeal k0 n70 0 true (List.replicate 4096 1)).take BUF_SIZE =
      List.replicate 4096 1 := by
    have h : (List.replicate 4096 1 : Bytes).length = BUF_SIZE := by
      rw [List.length_replicate]; rfl
    simp only [streamSeal, aeadSeal]
    exact List.take_left' h
  unfold decrypt_file
  rw [henc, decChunks_of_gt (by rw [hlen]; norm_num [BUF_SIZE])]
  rw [htake]
  have hopen : streamOpen k0 n70 0 false (List.replicate 4096 1) = none := by
    apply aeadOpen_wf_none
    · intro x hx
      have := List.eq_of_mem_replicate hx
      omega
    · rw [List.length_replicate]; omega
  simp only [openChunks, hopen]

/-- C2: the chunks that `decrypt_file` consumes from the input are read into
a 4096-byte buffer, so every non-final consumed chunk is 4096 bytes — not
the 4096 + 16 bytes the claim states. Evaluated on the ciphertext of an
8192-byte payload (8224 ciphertext bytes): the first chunk passed to
`decrypt_next` is exactly 4096 bytes long. -/
theorem c2_decrypt_consumes_4096_chunks :
    decChunks (encrypt_file k0 n70 (List.replicate 8192 1)) =
      (false, (encrypt_file k0 n70 (List.replicate 8192 1)).take BUF_SIZE) ::
        decChunks ((encrypt_file k0 n70 (List.replicate 8192 1)).drop BUF_SIZE) ∧
    ((encrypt_file k0 n70 (List.replicate 8192 1)).take BUF_SIZE).length = 4096 := by
  have htake : (List.replicate 8192 1 : Bytes).take BUF_SIZE = List.replicate 4096 1 := by
    rw [List.take_replicate]; norm_num [BUF_SIZE]
  have hdrop : (List.replicate 8192 1 : Bytes).drop BUF_SIZE = List.replicate 4096 1 := by
    rw [List.drop_replicate]; norm_num [BUF_SIZE]
  have hlen : (encrypt_file k0 n70 (List.replicate 8192 1)).length = 8224 := by
    unfold encrypt_file
    rw [encChunks_of_gt (by simp only [List.length_replicate, BUF_SIZE]; omega),
      htake, hdrop,
      encChunks_of_le (by simp only [List.length_replicate, BUF_SIZE]; omega)]
    simp only [sealChunks, List.append_nil, List.length_append, length_streamSeal,
      List.length_replicate]
  constructor
  · exact decChunks_of_gt (by rw [hlen]; norm_num [BUF_SIZE])
  · rw [List.length_take, hlen]; norm_num [BUF_SIZE]

/-- The loop of `encrypt_file` makes exactly one `encrypt_last` call,
whatever the payload. Proved by strong induction via a fuel bound. -/
theorem encChunks_one_last (n : Nat) : ∀ p : Bytes, p.length ≤ n →
    (encChunks p).countP (fun c => c.1) = 1 := by
  induction n with
  | zero =>
    intro p hp
    have : p = [] := List.eq_nil_of_length_eq_zero (by omega)
    subst this
    rw [encChunks_of_le (by simp [BUF_SIZE])]
    simp
  | succ n ih =>
    intro p hp
    by_cases h : p.length ≤ BUF_SIZE
    · rw [encChunks_of_le h]; simp
    · push_neg at h
      rw [encChunks_of_gt h]
      rw [List.countP_cons]
      have : (p.drop BUF_SIZE).length ≤ n := by
        simp only [List.length_drop]
        simp [BUF_SIZE] at h ⊢
        omega
      simp [ih _ this]

/-- C7: `encrypt_file` calls `encrypt_last` exactly once per input file; on
an empty payload the loop immediately takes the final branch, making no
`encrypt_next` call and one `encrypt_last` call on an empty slice, which
still produces one authenticated (16-byte tag) final chunk. -/
theorem c7_encrypt_last_once :
    (∀ p : Bytes, (encChunks p).countP (fun c => c.1) = 1) ∧
    encChunks [] = [(true, [])] ∧
    (∀ key n7 : Bytes, encrypt_file key n7 [] = streamSeal key n7 0 true [] ∧
      (encrypt_file key n7 []).length = 16) := by
  refine ⟨fun p => encChunks_one_last p.length p le_rfl, ?_, ?_⟩
  · rw [encChunks_of_le (by simp [BUF_SIZE])]
  · intro key n7
    have h : encrypt_file key n7 [] = streamSeal key n7 0 true [] := by
      unfold encrypt_file
      rw [encChunks_of_le (by simp [BUF_SIZE])]
      simp [sealChunks]
    exact ⟨h, by rw [h, length_streamSeal]; rfl⟩

/-! ## Round-trip lemmas for the header codec -/

theorem length_leBytes (k n : Nat) : (leBytes k n).length = k := by
  induction k generalizing n with
  | zero => rfl
  | succ k ih => simp [leBytes, ih]

theorem valLE_leBytes (k n : Nat) (h : n < 256 ^ k) : valLE (leBytes k n) = n := by
  induction k generalizing n with
  | zero =>
    interval_cases n
    rfl
  | succ k ih =>
    have hdiv : n / 256 < 256 ^ k := by
      rw [Nat.div_lt_iff_lt_mul (by norm_num)]
      calc n < 256 ^ (k + 1) := h
        _ = 256 ^ k * 256 := by ring
    simp only [leBytes, valLE, ih _ hdiv]
    omega

theorem readN_exact {l : Bytes} {n : Nat} (h : l.length = n) (r : Bytes) :
    readN n (l ++ r) = some (l, r) := by
  unfold readN
  rw [if_pos (by simp [h])]
  rw [List.take_left' h, List.drop_left' h]

theorem readU64_le64 {n : Nat} (h : n < 2 ^ 64) (r : Bytes) :
    readU64 (le64 n ++ r) = some (n, r) := by
  simp only [readU64, le64, readN_exact (length_leBytes 8 n),
    valLE_leBytes 8 n (by norm_num at h ⊢; omega)]

theorem readBStr_enc {s : Bytes} (h : s.length < 2 ^ 64) (r : Bytes) :
    readBStr (encBStr s ++ r) = some (s, r) := by
  simp only [readBStr, encBStr, List.append_assoc, readU64_le64 h,
    readN_exact rfl]

theorem readList_flatten {α : Type} (rd : Bytes → Option (α × Bytes))
    (e : α → Bytes) (xs : List α)
    (hrd : ∀ x ∈ xs, ∀ r', rd (e x ++ r') = some (x, r')) (r : Bytes) :
    readList rd xs.length ((xs.map e).flatten ++ r) = some (xs, r) := by
  induction xs with
  | nil => simp [readList]
  | cons x xs ih =>
    simp only [List.map_cons, List.flatten_cons, List.length_cons, List.append_assoc,
      readList, hrd x (by simp), ih (fun y hy => hrd y (by simp [hy]))]

theorem readFactor_enc {f : Bytes × Bytes} (h1 : f.1.length < 2 ^ 64)
    (h2 : f.2.length < 2 ^ 64) (r : Bytes) :
    readFactor (encFactor f ++ r) = some (f, r) := by
  simp only [readFactor, encFactor, List.append_assoc, readBStr_enc h1,
    readBStr_enc h2]

theorem readOptionData_enc {o : OptionData} (h : wfOptionData o) (r : Bytes) :
    readOptionData (encOptionData o ++ r) = some (o, r) := by
  obtain ⟨hsalt, hpkn, hct, hfc, hf⟩ := h
  simp only [readOptionData, encOptionData, List.append_assoc,
    readN_exact hsalt, readU64_le64 hfc,
    readList_flatten readFactor encFactor o.factors
      (fun x hx r' => readFactor_enc (hf x hx).1 (hf x hx).2 r'),
    readN_exact hpkn, readBStr_enc hct]

theorem readEntry_enc {e : Bytes × OptionData} (h1 : e.1.length < 2 ^ 64)
    (h2 : wfOptionData e.2) (r : Bytes) :
    readEntry (encEntry e ++ r) = some (e, r) := by
  simp only [readEntry, encEntry, List.append_assoc, readBStr_enc h1,
    readOptionData_enc h2]

theorem decodeHeader_enc {h : Header} (hwf : wfHeader h) (r : Bytes) :
    decodeHeader (encodeHeader h ++ r) = some (h, r) := by
  obtain ⟨hn, hoc, ho⟩ := hwf
  simp only [decodeHeader, encodeHeader, List.append_assoc, readU64_le64 hoc,
    readList_flatten readEntry encEntry h.options
      (fun x hx r' => readEntry_enc (ho x hx).1 (ho x hx).2 r'),
    readN_exact hn]

/-- Core round trip: `Header::from_file` applied to `Header::to_bytes`. -/
theorem from_file_to_bytes {h : Header} (hwf : wfHeader h)
    (hlen : (encodeHeader h).length < 2 ^ 64) :
    from_file (to_bytes h) = Except.ok h := by
  have h1 : readN (encodeHeader h).length (encodeHeader h) = some (encodeHeader h, []) := by
    simpa using readN_exact (l := encodeHeader h) rfl []
  have h2 : decodeHeader (encodeHeader h) = some (h, []) := by
    simpa using decodeHeader_enc hwf []
  simp only [from_file, to_bytes, readU64_le64 hlen, h1, h2]

/-- C3: the header codec round-trips. For every syntactically valid header
(declared array sizes correct, all length fields represent their list's
length in a `u64`), reading back the bytes written by `Header::to_bytes`
through `Header::from_file` — 8-byte little-endian length, then that many
header bytes — returns the same header. -/
theorem c3_header_roundtrip (h : Header) (hwf : wfHeader h)
    (hlen : (encodeHeader h).length < 2 ^ 64) :
    from_file (to_bytes h) = Except.ok h :=
  from_file_to_bytes hwf hlen

set_option maxRecDepth 8000 in
/-- Witness for C3 at the concrete header `hEx`. -/
theorem c3_header_roundtrip_witness : from_file (to_bytes hEx) = Except.ok hEx :=
  c3_header_roundtrip hEx (by decide) (by decide)

theorem wf_bigH : wfHeader bigH := by
  refine ⟨rfl, by norm_num [bigH], ?_⟩
  intro e he
  simp only [bigH, List.mem_singleton] at he
  subst he
  refine ⟨by norm_num, rfl, rfl, ?_, by norm_num, ?_⟩
  · rw [List.length_replicate]; norm_num
  · intro f hf
    simp only [List.mem_singleton] at hf
    subst hf
    exact ⟨by norm_num, by rw [List.length_replicate]; norm_num⟩

theorem length_encodeHeader_bigH : (encodeHeader bigH).length = 2 ^ 24 + 149 := by
  simp only [encodeHeader, bigH, encEntry, encOptionData, encFactor, encBStr, le64,
    List.map_cons, List.map_nil, List.flatten_cons, List.flatten_nil,
    List.length_append, length_leBytes, List.length_replicate, List.length_cons,
    List.length_nil, List.append_nil]
  norm_num

/-- C5 counterexample: `Header::from_file` applies no size cap. A header
whose declared length exceeds 16 MiB (2^24 bytes) is read and decoded in
full and returned successfully, contradicting the claim that every declared
length above the cap raises an error. -/
theorem c5_counterexample :
    from_file (to_bytes bigH) = Except.ok bigH ∧
      2 ^ 24 < (encodeHeader bigH).length := by
  refine ⟨from_file_to_bytes wf_bigH ?_, ?_⟩
  · rw [length_encodeHeader_bigH]; norm_num
  · rw [length_encodeHeader_bigH]; norm_num

/-- C5 amended: `Header::from_file` raises a fatal error when the input is
truncated (fewer than 8 bytes for the length, or fewer available bytes than
the declared length) or when the header bytes fail to decode; it enforces no
cap on the declared length. -/
theorem c5_from_file_errors_amended :
    (∀ input : Bytes, input.length < 8 →
      from_file input = Except.error Err.ioError) ∧
    (∀ (input : Bytes) (len : Nat) (rest : Bytes),
      readU64 input = some (len, rest) → rest.length < len →
      from_file input = Except.error Err.ioError) ∧
    (∀ (input : Bytes) (len : Nat) (rest hb r2 : Bytes),
      readU64 input = some (len, rest) → readN len rest = some (hb, r2) →
      decodeHeader hb = none →
      from_file input = Except.error Err.headerMalformed) := by
  refine ⟨?_, ?_, ?_⟩
  · intro input h
    have h8 : readN 8 input = none := by
      unfold readN; rw [if_neg (by omega)]
    simp only [from_file, readU64, h8]
  · intro input len rest h1 h2
    have hn : readN len rest = none := by
      unfold readN; rw [if_neg (by omega)]
    simp only [from_file, h1, hn]
  · intro input len rest hb r2 h1 h2 h3
    simp only [from_file, h1, h2, h3]

/-- Witness for C5-amended: a 2-byte input, an input declaring 100 bytes
with none available, and an input declaring 0 header bytes (which fail to
decode). -/
theorem c5_from_file_errors_amended_witness :
    from_file [0, 0] = Except.error Err.ioError ∧
    from_file (le64 100) = Except.error Err.ioError ∧
    from_file (le64 0) = Except.error Err.headerMalformed :=
  ⟨c5_from_file_errors_amended.1 [0, 0] (by norm_num),
    c5_from_file_errors_amended.2.1 (le64 100) 100 [] (by decide) (by norm_num),
    c5_from_file_errors_amended.2.2 (le64 0) 0 [] [] [] (by decide) (by decide)
      (by decide)⟩

/-- C8 counterexample: a serialized header declaring zero options parses
successfully — `from_file` returns a header with an empty options map
instead of a `HeaderMalformed` error. -/
theorem c8_counterexample :
    from_file (le64 15 ++ le64 0 ++ List.replicate 7 0) =
      Except.ok { options := [], nonce := List.replicate 7 0 } := by decide

/-- C8 amended: `Header::from_file` performs no validation beyond bincode
decoding: for any 7-byte nonce, the 15-byte header encoding zero options
decodes successfully and `from_file` returns a header whose options map is
empty. -/
theorem c8_zero_options_parse_amended (n7 : Bytes) (h : n7.length = 7) :
    from_file (le64 15 ++ le64 0 ++ n7) =
      Except.ok { options := [], nonce := n7 } := by
  have h1 : readU64 (le64 15 ++ (le64 0 ++ n7)) = some (15, le64 0 ++ n7) :=
    readU64_le64 (by norm_num) _
  have h2 : readN 15 (le64 0 ++ n7) = some (le64 0 ++ n7, []) := by
    have := readN_exact (l := le64 0 ++ n7) (n := 15)
      (by simp [le64, length_leBytes, h]) []
    simpa using this
  have h3 : decodeHeader (le64 0 ++ n7) = some (⟨[], n7⟩, []) := by
    have hn : readN 7 n7 = some (n7, []) := by
      have := readN_exact (l := n7) (n := 7) h []
      simpa using this
    simp only [decodeHeader, readU64_le64 (show (0 : Nat) < 2 ^ 64 by norm_num),
      readList, hn]
  simp only [List.append_assoc, from_file, h1, h2, h3]

/-- Witness for C8-amended at the nonce of seven 5-bytes. -/
theorem c8_zero_options_parse_amended_witness :
    from_file (le64 15 ++ le64 0 ++ List.replicate 7 5) =
      Except.ok { options := [], nonce := List.replicate 7 5 } :=
  c8_zero_options_parse_amended (List.replicate 7 5) (by norm_num)

/-! ## Header creation: option independence and duplicate names -/

theorem mem_foldl_insert (pk : Bytes) (specs : List OptionSpec) :
    ∀ (acc : List (Bytes × OptionData)) (nm : Bytes) (od : OptionData),
      (nm, od) ∈ specs.foldl (fun m s => insertA s.name (mkOptionData pk s) m) acc →
      (nm, od) ∈ acc ∨ ∃ s ∈ specs, s.name = nm ∧ od = mkOptionData pk s := by
  induction specs with
  | nil => intro acc nm od h; exact Or.inl h
  | cons s rest ih =>
    intro acc nm od h
    simp only [List.foldl_cons] at h
    rcases ih _ nm od h with hacc | ⟨t, ht, h1, h2⟩
    · unfold insertA at hacc
      rcases List.mem_append.mp hacc with hf | hs
      · exact Or.inl (List.mem_of_mem_filter hf)
      · simp only [List.mem_singleton, Prod.mk.injEq] at hs
        exact Or.inr ⟨s, by simp, hs.1.symm, hs.2⟩
    · exact Or.inr ⟨t, by simp [ht], h1, h2⟩

/-- C6: every option stored by `Header::new` wraps the same primary key.
Each option in the produced header comes from one of the option specs, and
AEAD-opening its `primary_key_ciphertext` under the Argon2 key of that
option's concatenated factor keys (in stored order) and its salt, with its
`primary_key_nonce`, yields the one primary key `pk` shared by the header. -/
theorem c6_option_independence (pk n7 : Bytes) (specs : List OptionSpec)
    (nm : Bytes) (od : OptionData)
    (hmem : (nm, od) ∈ (header_new pk n7 specs).options) :
    ∃ s ∈ specs, s.name = nm ∧ od = mkOptionData pk s ∧
      aeadOpen (argon2 (totalKey s.factors) od.salt) od.primary_key_nonce
        od.primary_key_ciphertext = some pk := by
  rcases mem_foldl_insert pk specs [] nm od (by simpa [header_new] using hmem)
    with h | ⟨s, hs, h1, h2⟩
  · simp at h
  · refine ⟨s, hs, h1, h2, ?_⟩
    subst h2
    simp only [mkOptionData]
    exact aeadOpen_seal _ _ _

set_option maxRecDepth 4000 in
/-- Witness for C6: the single option built from `spec0` opens to `pk0`. -/
theorem c6_option_independence_witness :
    ∃ s ∈ [spec0], s.name = spec0.name ∧
      mkOptionData pk0 spec0 = mkOptionData pk0 s ∧
      aeadOpen (argon2 (totalKey s.factors) (mkOptionData pk0 spec0).salt)
        (mkOptionData pk0 spec0).primary_key_nonce
        (mkOptionData pk0 spec0).primary_key_ciphertext = some pk0 :=
  c6_option_independence pk0 n70 [spec0] spec0.name (mkOptionData pk0 spec0)
    (by decide)

set_option maxRecDepth 4000 in
/-- C9 counterexample: `Header::new` does not reject a duplicate option
name. Building a header from two specs that share the name `[78]` silently
discards the first option — the result holds only the second option, and the
two options differ (their salts differ) — instead of failing with an
`InvalidConfiguration` error. -/
theorem c9_counterexample :
    (header_new pk0 n70 [sp1, sp2]).options = [([78], mkOptionData pk0 sp2)] ∧
      mkOptionData pk0 sp1 ≠ mkOptionData pk0 sp2 := by
  constructor
  · decide
  · decide

theorem insertA_insertA (k : Bytes) (v1 v2 : OptionData)
    (m : List (Bytes × OptionData)) :
    insertA k v2 (insertA k v1 m) = insertA k v2 m := by
  unfold insertA
  rw [List.filter_append]
  simp [List.filter_filter]

/-- C9 amended: option names are keys of a `HashMap`, and `Header::new`
inserts without any uniqueness check: a later option spec with the same name
silently replaces the earlier one, so the header is the same as if the
earlier spec had never been supplied. -/
theorem c9_insert_overwrites_amended (pk n7 : Bytes) (pre post : List OptionSpec)
    (t1 t2 : OptionSpec) (hname : t1.name = t2.name) :
    (header_new pk n7 (pre ++ t1 :: t2 :: post)).options =
      (header_new pk n7 (pre ++ t2 :: post)).options := by
  simp only [header_new, List.foldl_append, List.foldl_cons]
  rw [hname, insertA_insertA]

/-- Witness for C9-amended at `sp1`, `sp2`. -/
theorem c9_insert_overwrites_amended_witness :
    (header_new pk0 n70 [sp1, sp2]).options =
      (header_new pk0 n70 [sp2]).options :=
  c9_insert_overwrites_amended pk0 n70 [] [] sp1 sp2 rfl

/-! ## Unknown-factor handling in Header::to_decryptor -/

/-- C4 counterexample: with the registry knowing only factor "a" and the
chosen option listing "a" before the unknown factor "x", `to_decryptor`
does fail with `UnknownFactor("x")` — but only after factor "a" was derived:
the derive trace is `["a"]`, not empty, refuting "before any factor prompt
occurs, regardless of X's position". -/
theorem c4_counterexample :
    to_decryptor h4 reg0 [99] = Except.error (Err.unknownFactor [120]) ∧
      (deriveFactors reg0 od0.factors).2 = [[97]] := by
  constructor
  · decide
  · decide

/-- C4 amended: the registry lookup happens factor by factor, each just
before that factor's `derive` runs. If the factors before the first unknown
name `x` all derive successfully (with trace `tr`), `to_decryptor`'s factor
loop fails with `UnknownFactor(x)` and `x` itself is never derived — but the
factors before it have been. -/
theorem c4_unknown_factor_amended (reg : Registry) (pre : List (Bytes × Bytes))
    (x d : Bytes) (rest : List (Bytes × Bytes)) (tk : Bytes) (tr : List Bytes)
    (hpre : deriveFactors reg pre = (Except.ok tk, tr))
    (hx : List.lookup x reg = none) :
    deriveFactors reg (pre ++ (x, d) :: rest) =
      (Except.error (Err.unknownFactor x), tr) ∧ x ∉ tr := by
  induction pre generalizing tk tr with
  | nil =>
    simp only [deriveFactors, Prod.mk.injEq] at hpre
    obtain ⟨-, hb⟩ := hpre
    subst hb
    rw [List.nil_append]
    simp [deriveFactors, hx]
  | cons hd tl ih =>
    obtain ⟨nm, dd⟩ := hd
    rw [List.cons_append]
    cases hnm : List.lookup nm reg with
    | none =>
      simp only [deriveFactors, hnm] at hpre
      simp at hpre
    | some f =>
      cases hf : f dd with
      | error e =>
        simp only [deriveFactors, hnm, hf] at hpre
        simp at hpre
      | ok key =>
        rcases hrec : deriveFactors reg tl with ⟨res, tr'⟩
        simp only [deriveFactors, hnm, hf, hrec, Prod.mk.injEq] at hpre
        obtain ⟨hmap, htr⟩ := hpre
        cases res with
        | error e => simp [Except.map] at hmap
        | ok tk2 =>
          obtain ⟨hgoal, hnotin⟩ := ih tk2 tr' hrec
          refine ⟨?_, ?_⟩
          · simp only [deriveFactors, hnm, hf, hgoal, Except.map]
            rw [htr]
          · rw [← htr]
            intro hmem
            rcases List.mem_cons.mp hmem with h1 | h2
            · rw [h1] at hx; rw [hx] at hnm; cases hnm
            · exact hnotin h2

/-- Witness for C4-amended: registry `reg0`, known factor "a" first,
unknown factor "x" second. -/
theorem c4_unknown_factor_amended_witness :
    deriveFactors reg0 ([([97], [0])] ++ ([120], [0]) :: []) =
      (Except.error (Err.unknownFactor [120]), [[97]]) ∧ [120] ∉ [[97]] :=
  c4_unknown_factor_amended reg0 [([97], [0])] [120] [0] [] [1] [[97]]
    rfl rfl

/-! ## The file loops with explicit read results (C10) -/

theorem encChunks_length_pos (p : Bytes) : 0 < (encChunks p).length := by
  by_cases h : p.length ≤ BUF_SIZE
  · rw [encChunks_of_le h]; simp
  · rw [encChunks_of_gt (by omega)]; simp

theorem decChunks_length_pos (c : Bytes) : 0 < (decChunks c).length := by
  by_cases h : c.length ≤ BUF_SIZE
  · rw [decChunks_of_le h]; simp
  · rw [decChunks_of_gt (by omega)]; simp

theorem encGo_step_gt (input key n7 : Bytes) (n : Nat) (s' : List Nat)
    (pos : Nat) (buf : Bytes) (ctr : Nat) (h : BUF_SIZE < input.length - pos) :
    encGo input key n7 (n :: s') pos buf ctr =
      (encGo input key n7 s'
          (pos + min n (min BUF_SIZE (input.length - pos)))
          ((input.drop pos).take (min n (min BUF_SIZE (input.length - pos))) ++
            buf.drop (min n (min BUF_SIZE (input.length - pos)))) (ctr + 1)).map
        (fun out =>
          streamSeal key n7 ctr false
            ((input.drop pos).take (min n (min BUF_SIZE (input.length - pos))) ++
              buf.drop (min n (min BUF_SIZE (input.length - pos)))) ++ out) := by
  conv_lhs => unfold encGo
  simp [h]

theorem encGo_step_le (input key n7 : Bytes) (n : Nat) (s' : List Nat)
    (pos : Nat) (buf : Bytes) (ctr : Nat) (h : ¬ BUF_SIZE < input.length - pos) :
    encGo input key n7 (n :: s') pos buf ctr =
      Except.ok (streamSeal key n7 ctr true
        (((input.drop pos).take (min n (min BUF_SIZE (input.length - pos))) ++
          buf.drop (min n (min BUF_SIZE (input.length - pos)))).take
            (min n (min BUF_SIZE (input.length - pos))))) := by
  conv_lhs => unfold encGo
  simp [h]

theorem decGo_step_gt (input key n7 : Bytes) (n : Nat) (s' : List Nat)
    (pos : Nat) (buf : Bytes) (ctr : Nat) (h : BUF_SIZE < input.length - pos) :
    decGo input key n7 (n :: s') pos buf ctr =
      match streamOpen key n7 ctr false
          ((input.drop pos).take (min n (min BUF_SIZE (input.length - pos))) ++
            buf.drop (min n (min BUF_SIZE (input.length - pos)))) with
      | none => Except.error Err.decryptionFailed
      | some m =>
        (decGo input key n7 s'
            (pos + min n (min BUF_SIZE (input.length - pos)))
            ((input.drop pos).take (min n (min BUF_SIZE (input.length - pos))) ++
              buf.drop (min n (min BUF_SIZE (input.length - pos)))) (ctr + 1)).map
          (fun out => m ++ out) := by
  conv_lhs => unfold decGo
  simp [h]

theorem decGo_step_le (input key n7 : Bytes) (n : Nat) (s' : List Nat)
    (pos : Nat) (buf : Bytes) (ctr : Nat) (h : ¬ BUF_SIZE < input.length - pos) :
    decGo input key n7 (n :: s') pos buf ctr =
      match streamOpen key n7 ctr true
          (((input.drop pos).take (min n (min BUF_SIZE (input.length - pos))) ++
            buf.drop (min n (min BUF_SIZE (input.length - pos)))).take
              (min n (min BUF_SIZE (input.length - pos)))) with
      | none => Except.error Err.decryptionFailed
      | some m => Except.ok m := by
  conv_lhs => unfold decGo
  simp [h]

/-- When every read returns the full requested amount, the encrypt loop
with explicit reads computes exactly the chunked transform. -/
theorem encGo_full (input key n7 : Bytes) :
    ∀ (sched : List Nat) (pos : Nat) (buf : Bytes) (ctr : Nat),
      (∀ n ∈ sched, BUF_SIZE ≤ n) →
      (encChunks (input.drop pos)).length ≤ sched.length →
      buf.length = BUF_SIZE → pos ≤ input.length →
      encGo input key n7 sched pos buf ctr =
        Except.ok (sealChunks key n7 ctr (encChunks (input.drop pos))) := by
  intro sched
  induction sched with
  | nil =>
    intro pos buf ctr _ hlen _ _
    have := encChunks_length_pos (input.drop pos)
    simp only [List.length_nil] at hlen
    omega
  | cons n s' ih =>
    intro pos buf ctr hs hlen hbuf hpos
    have hn : BUF_SIZE ≤ n := hs n (by simp)
    have hdl : (input.drop pos).length = input.length - pos := List.length_drop pos input
    by_cases hgt : BUF_SIZE < input.length - pos
    · have hr : min n (min BUF_SIZE (input.length - pos)) = BUF_SIZE := by omega
      rw [encGo_step_gt input key n7 n s' pos buf ctr hgt, hr]
      have hdropbuf : buf.drop BUF_SIZE = [] := List.drop_eq_nil_of_le (by omega)
      rw [hdropbuf, List.append_nil]
      have hchunks : encChunks (input.drop pos) =
          (false, (input.drop pos).take BUF_SIZE) ::
            encChunks ((input.drop pos).drop BUF_SIZE) :=
        encChunks_of_gt (by omega)
      have hdd : (input.drop pos).drop BUF_SIZE = input.drop (pos + BUF_SIZE) := by
        rw [List.drop_drop, Nat.add_comm]
      have ihr := ih (pos + BUF_SIZE) ((input.drop pos).take BUF_SIZE) (ctr + 1)
        (fun m hm => hs m (by simp [hm]))
        (by
          rw [hchunks] at hlen
          simp only [List.length_cons] at hlen
          rw [← hdd]
          simp at hlen ⊢
          omega)
        (by rw [List.length_take]; omega)
        (by omega)
      rw [ihr, hchunks, hdd]
      simp [sealChunks, Except.map]
    · have hr : min n (min BUF_SIZE (input.length - pos)) = input.length - pos := by
        omega
      rw [encGo_step_le input key n7 n s' pos buf ctr hgt, hr]
      have htk : (input.drop pos).take (input.length - pos) = input.drop pos :=
        List.take_of_length_le (by omega)
      rw [htk]
      have htk2 : ((input.drop pos) ++ buf.drop (input.length - pos)).take
          (input.length - pos) = input.drop pos := List.take_left' hdl
      rw [htk2]
      rw [encChunks_of_le (by omega)]
      simp [sealChunks]

/-- When every read returns the full requested amount, the decrypt loop
with explicit reads computes exactly the chunked transform (including its
failures). -/
theorem decGo_full (input key n7 : Bytes) :
    ∀ (sched : List Nat) (pos : Nat) (buf : Bytes) (ctr : Nat),
      (∀ n ∈ sched, BUF_SIZE ≤ n) →
      (decChunks (input.drop pos)).length ≤ sched.length →
      buf.length = BUF_SIZE → pos ≤ input.length →
      decGo input key n7 sched pos buf ctr =
        openChunks key n7 ctr (decChunks (input.drop pos)) := by
  intro sched
  induction sched with
  | nil =>
    intro pos buf ctr _ hlen _ _
    have := decChunks_length_pos (input.drop pos)
    simp only [List.length_nil] at hlen
    omega
  | cons n s' ih =>
    intro pos buf ctr hs hlen hbuf hpos
    have hn : BUF_SIZE ≤ n := hs n (by simp)
    have hdl : (input.drop pos).length = input.length - pos := List.length_drop pos input
    by_cases hgt : BUF_SIZE < input.length - pos
    · have hr : min n (min BUF_SIZE (input.length - pos)) = BUF_SIZE := by omega
      rw [decGo_step_gt input key n7 n s' pos buf ctr hgt, hr]
      have hdropbuf : buf.drop BUF_SIZE = [] := List.drop_eq_nil_of_le (by omega)
      rw [hdropbuf, List.append_nil]
      have hchunks : decChunks (input.drop pos) =
          (false, (input.drop pos).take BUF_SIZE) ::
            decChunks ((input.drop pos).drop BUF_SIZE) :=
        decChunks_of_gt (by omega)
      have hdd : (input.drop pos).drop BUF_SIZE = input.drop (pos + BUF_SIZE) := by
        rw [List.drop_drop, Nat.add_comm]
      rw [hchunks]
      simp only [openChunks]
      cases hopen : streamOpen key n7 ctr false ((input.drop pos).take BUF_SIZE) with
      | none => rfl
      | some m =>
        have ihr := ih (pos + BUF_SIZE) ((input.drop pos).take BUF_SIZE) (ctr + 1)
          (fun q hq => hs q (by simp [hq]))
          (by
            rw [hchunks] at hlen
            simp only [List.length_cons] at hlen
            rw [← hdd]
            simp at hlen ⊢
            omega)
          (by rw [List.length_take]; omega)
          (by omega)
        rw [ihr, hdd]
    · have hr : min n (min BUF_SIZE (input.length - pos)) = input.length - pos := by
        omega
      rw [decGo_step_le input key n7 n s' pos buf ctr hgt, hr]
      have htk : (input.drop pos).take (input.length - pos) = input.drop pos :=
        List.take_of_length_le (by omega)
      rw [htk]
      have htk2 : ((input.drop pos) ++ buf.drop (input.length - pos)).take
          (input.length - pos) = input.drop pos := List.take_left' hdl
      rw [htk2]
      rw [decChunks_of_le (by omega)]
      simp only [openChunks]
      cases hopen : streamOpen key n7 ctr true (input.drop pos) with
      | none => rfl
      | some m => simp [Except.map]

/-- C10: in the non-final branch of both loops the byte count returned by
`read` is ignored and the entire 4096-byte buffer is passed to
`encrypt_next`/`decrypt_next`. Consequently (i) when every read returns the
full requested amount, `encrypt_file`/`decrypt_file` compute exactly the
chunked STREAM transform of their input, and (ii) a single short non-final
read makes the encryptor silently seal stale buffer bytes: the run still
returns success, but its output differs from the chunked transform of the
input. -/
theorem c10_read_counts :
    (∀ (key n7 input : Bytes) (sched : List Nat),
      (∀ n ∈ sched, BUF_SIZE ≤ n) →
      (encChunks input).length ≤ sched.length →
      encryptWithReads key n7 input sched =
        Except.ok (encrypt_file key n7 input)) ∧
    (∀ (key n7 input : Bytes) (sched : List Nat),
      (∀ n ∈ sched, BUF_SIZE ≤ n) →
      (decChunks input).length ≤ sched.length →
      decryptWithReads key n7 input sched = decrypt_file key n7 input) ∧
    (∃ out : Bytes,
      encryptWithReads k0 n70 (List.replicate 4097 1) [1, 4096] =
        Except.ok out ∧
      out ≠ encrypt_file k0 n70 (List.replicate 4097 1)) := by
  refine ⟨?_, ?_, ?_⟩
  · intro key n7 input sched hs hlen
    unfold encryptWithReads encrypt_file
    rw [encGo_full input key n7 sched 0 (List.replicate BUF_SIZE 0) 0 hs
      (by rw [List.drop_zero]; exact hlen) (by rw [List.length_replicate])
      (by omega), List.drop_zero]
  · intro key n7 input sched hs hlen
    unfold decryptWithReads decrypt_file
    rw [decGo_full input key n7 sched 0 (List.replicate BUF_SIZE 0) 0 hs
      (by rw [List.drop_zero]; exact hlen) (by rw [List.length_replicate])
      (by omega), List.drop_zero]
  · refine ⟨streamSeal k0 n70 0 false (1 :: List.replicate 4095 0) ++
      streamSeal k0 n70 1 true (List.replicate 4096 1), ?_, ?_⟩
    · unfold encryptWithReads
      rw [encGo_step_gt (List.replicate 4097 1) k0 n70 1 [4096] 0
        (List.replicate BUF_SIZE 0) 0
        (by simp only [List.length_replicate, BUF_SIZE]; omega)]
      have hr1 : min 1 (min BUF_SIZE ((List.replicate 4097 1 : Bytes).length - 0)) = 1 := by
        simp only [List.length_replicate, BUF_SIZE]; omega
      rw [hr1]
      have hbuf1 : ((List.replicate 4097 1 : Bytes).drop 0).take 1 ++
          (List.replicate BUF_SIZE 0 : Bytes).drop 1 = 1 :: List.replicate 4095 0 := by
        rw [List.drop_zero, List.take_replicate, List.drop_replicate]
        norm_num [BUF_SIZE]
      rw [hbuf1]
      rw [encGo_step_le (List.replicate 4097 1) k0 n70 4096 [] (0 + 1)
        (1 :: List.replicate 4095 0) (0 + 1)
        (by simp only [List.length_replicate, BUF_SIZE]; omega)]
      have hr2 : min 4096 (min BUF_SIZE
          ((List.replicate 4097 1 : Bytes).length - (0 + 1))) = 4096 := by
        simp only [List.length_replicate, BUF_SIZE]; omega
      rw [hr2]
      have hdropb : ((1 : Nat) :: List.replicate 4095 0 : Bytes).drop 4096 = [] :=
        List.drop_eq_nil_of_le
          (by simp only [List.length_cons, List.length_replicate]; omega)
      have hbuf2 : ((List.replicate 4097 1 : Bytes).drop (0 + 1)).take 4096 ++
          ((1 : Nat) :: List.replicate 4095 0 : Bytes).drop 4096 =
            List.replicate 4096 1 := by
        rw [hdropb, List.append_nil, List.drop_replicate, List.take_replicate]
        norm_num
      rw [hbuf2]
      have htk : (List.replicate 4096 1 : Bytes).take 4096 = List.replicate 4096 1 := by
        rw [List.take_replicate]; norm_num
      rw [htk]
      rfl
    · intro heq
      have hideal : encrypt_file k0 n70 (List.replicate 4097 1) =
          streamSeal k0 n70 0 false (List.replicate 4096 1) ++
            (streamSeal k0 n70 1 true [1] ++ []) := by
        unfold encrypt_file
        rw [encChunks_of_gt (by simp only [List.length_replicate, BUF_SIZE]; omega)]
        have ht : (List.replicate 4097 1 : Bytes).take BUF_SIZE =
            List.replicate 4096 1 := by
          rw [List.take_replicate]; norm_num [BUF_SIZE]
        have hd : (List.replicate 4097 1 : Bytes).drop BUF_SIZE = [1] := by
          rw [List.drop_replicate]; norm_num [BUF_SIZE]
        rw [ht, hd, encChunks_of_le (by simp [BUF_SIZE])]
        simp only [sealChunks]
      have h1 : (streamSeal k0 n70 0 false (1 :: List.replicate 4095 0) ++
          streamSeal k0 n70 1 true (List.replicate 4096 1))[1]? = some 0 := by
        rw [List.getElem?_append_left (by
          rw [length_streamSeal]
          simp only [List.length_cons, List.length_replicate]
          omega)]
        simp only [streamSeal, aeadSeal]
        rw [List.getElem?_append_left (by
          simp only [List.length_cons, List.length_replicate]
          omega)]
        rw [List.getElem?_cons_succ, List.getElem?_replicate]
        norm_num
      have h2 : (streamSeal k0 n70 0 false (List.replicate 4096 1) ++
          (streamSeal k0 n70 1 true [1] ++ []))[1]? = some 1 := by
        rw [List.getElem?_append_left (by
          rw [length_streamSeal]
          simp only [List.length_replicate]
          omega)]
        simp only [streamSeal, aeadSeal]
        rw [List.getElem?_append_left (by
          simp only [List.length_replicate]
          omega)]
        rw [List.getElem?_replicate]
        norm_num
      rw [heq, hideal, h2] at h1
      cases h1

/-- Witness for C10's universally quantified parts: a 2-byte payload
encrypted with one full read, and a 20-byte ciphertext decrypted with one
full read. -/
theorem c10_read_counts_witness :
    encryptWithReads k0 n70 [2, 2] [4096] =
      Except.ok (encrypt_file k0 n70 [2, 2]) ∧
    decryptWithReads k0 n70 (List.replicate 20 9) [4096] =
      decrypt_file k0 n70 (List.replicate 20 9) :=
  ⟨c10_read_counts.1 k0 n70 [2, 2] [4096] (by norm_num [BUF_SIZE])
      (by rw [encChunks_of_le (by norm_num [BUF_SIZE])]; norm_num),
    c10_read_counts.2.1 k0 n70 (List.replicate 20 9) [4096]
      (by norm_num [BUF_SIZE])
      (by rw [decChunks_of_le
          (by simp only [List.length_replicate, BUF_SIZE]; omega)]; norm_num)⟩

end Cyst
